import Mathlib

/-!
REGoth `ScriptEngine`: script call protocol and world/script event bridge.

A shallow embedding of `src/logic/ScriptEngine.cpp`.

* The Daedalus VM (`Daedalus::DaedalusVM`) is an external collaborator of the file; the
  primitives that `ScriptEngine` calls on it are modelled from the specification, and the
  bytecode interpreter step `doStack` is a parameter of the model (any function on the
  engine state), so every callee behaviour is covered.
* Machine strings are lists of characters, `size_t` arithmetic is taken modulo `2^64`,
  `int32_t` payload elements are the integers of the 32-bit range and a json number stored
  into a payload is taken modulo `2^32`.
-/

namespace REGoth

/-! ## The Daedalus VM as seen from `ScriptEngine` -/

/-- Modelled from the spec: the class tag of an instance binding (None/NPC/Item/other);
`Daedalus::EInstanceClass` is declared outside `ScriptEngine.cpp`. -/
inductive EInstanceClass
  | IC_None
  | IC_Npc
  | IC_Item
  | IC_Other
  deriving DecidableEq, Repr

/-- Modelled from the spec: the VM run-state, "a full copy of the VM's operand stack, call
stack, and current instance bindings". The program counter is the place where a call
operation is recorded. -/
structure VMState where
  stack : List Int
  callStack : List Nat
  pc : Nat
  instances : List (String × Nat × EInstanceClass)
  currentInstance : Nat
  deriving DecidableEq, Repr

/-- Ghost record of the VM primitives invoked, used to count operations. -/
inductive VMOp
  | pushState
  | pushInt (v : Int)
  | setInstance (target : String) (h : Nat) (c : EInstanceClass)
  | setCurrentInstance (sym : Nat)
  | doCallOperation (addr : Nat)
  | clearCallStack
  | doStack
  | popDataValue
  | popState
  deriving DecidableEq, Repr

/-- Modelled from the spec: the VM object `m_pVM`: current run-state, the internal save-stack
of snapshots, and the ghost operation log. -/
structure DaedalusVM where
  run : VMState
  stateStack : List VMState
  opLog : List VMOp
  deriving DecidableEq, Repr

/-- The part of the `ScriptEngine` object used by the call protocol: the VM and the
warning log written by `LogWarn()`. -/
structure ScriptEngine where
  m_pVM : DaedalusVM
  warnings : List String
  deriving DecidableEq, Repr

/-- Failure modes of the model that the C++ code does not handle: a drain that does not finish
within the given number of steps, and `popState` on an empty save-stack (undefined
behaviour of `std::stack::top`). -/
inductive Fault
  | outOfFuel
  | emptyStateStack
  deriving DecidableEq, Repr

namespace DaedalusVM

/-- Modelled from the spec: `pushState` snapshots the current run-state onto the save-stack. -/
def pushState (vm : DaedalusVM) : DaedalusVM :=
  { vm with stateStack := vm.run :: vm.stateStack, opLog := vm.opLog ++ [VMOp.pushState] }

/-- Modelled from the spec: `popState` restores the run-state captured by the latest
`pushState` and removes it from the save-stack. -/
def popState (vm : DaedalusVM) : Option DaedalusVM :=
  match vm.stateStack with
  | [] => none
  | s :: rest => some { run := s, stateStack := rest, opLog := vm.opLog ++ [VMOp.popState] }

/-- Modelled from the spec: `pushInt` pushes a value on the operand stack. -/
def pushInt (vm : DaedalusVM) (v : Int) : DaedalusVM :=
  { vm with run := { vm.run with stack := v :: vm.run.stack },
            opLog := vm.opLog ++ [VMOp.pushInt v] }

/-- Modelled from the spec: `setInstance` rebinds the named instance symbol. -/
def setInstance (vm : DaedalusVM) (target : String) (h : Nat) (c : EInstanceClass) :
    DaedalusVM :=
  { vm with run := { vm.run with
                     instances := (target, h, c) :: vm.run.instances.filter (fun b => b.1 ≠ target) },
            opLog := vm.opLog ++ [VMOp.setInstance target h c] }

/-- Modelled from the spec: `setCurrentInstance` marks a symbol as the active instance
context. -/
def setCurrentInstance (vm : DaedalusVM) (sym : Nat) : DaedalusVM :=
  { vm with run := { vm.run with currentInstance := sym },
            opLog := vm.opLog ++ [VMOp.setCurrentInstance sym] }

/-- Modelled from the spec: `doCallOperation` places a call operation at the address: the
return position goes on the call stack and execution continues at `addr`. -/
def doCallOperation (vm : DaedalusVM) (addr : Nat) : DaedalusVM :=
  { vm with run := { vm.run with callStack := vm.run.pc :: vm.run.callStack, pc := addr },
            opLog := vm.opLog ++ [VMOp.doCallOperation addr] }

/-- Modelled from the spec: `clearCallStack` clears any stale call-stack residue. -/
def clearCallStack (vm : DaedalusVM) : DaedalusVM :=
  { vm with run := { vm.run with callStack := [] },
            opLog := vm.opLog ++ [VMOp.clearCallStack] }

/-- Modelled from the spec: `isStackEmpty` tests the operand stack. -/
def isStackEmpty (vm : DaedalusVM) : Bool :=
  vm.run.stack.isEmpty

/-- Modelled from the spec: `popDataValue` pops one value from the operand stack and returns
it. `runFunction` only calls it on a non-empty stack; on an empty one the model returns 0. -/
def popDataValue (vm : DaedalusVM) : Int × DaedalusVM :=
  match vm.run.stack with
  | [] => (0, { vm with opLog := vm.opLog ++ [VMOp.popDataValue] })
  | v :: rest =>
    (v, { vm with run := { vm.run with stack := rest },
                  opLog := vm.opLog ++ [VMOp.popDataValue] })

end DaedalusVM

/-- The interpreter step `m_pVM->doStack()`: executes pending script code and reports
whether more instructions are pending. It is opaque to `ScriptEngine`, so it is a parameter;
it acts on the whole engine because script code re-enters the engine through externals. -/
abbrev DoStack := ScriptEngine → Bool × ScriptEngine

/-- `ScriptEngine::pushInt` (lines 117-120). -/
def pushInt (e : ScriptEngine) (v : Int) : ScriptEngine :=
  { e with m_pVM := e.m_pVM.pushInt v }

/-- `ScriptEngine::prepareRunFunction` (lines 57-64). -/
def prepareRunFunction (e : ScriptEngine) : ScriptEngine :=
  -- Clean the VM for this run
  let e1 := { e with m_pVM := e.m_pVM.pushState }
  -- Init stack with a value of 0
  pushInt e1 0

/-- Lines 80-82 of `runFunction`: place the call operation and clear the call stack. -/
def placeCall (addr : Nat) (e : ScriptEngine) : ScriptEngine :=
  { e with m_pVM := (e.m_pVM.doCallOperation addr).clearCallStack }

/-- Line 85 of `runFunction`: `while(m_pVM->doStack());` with a bound on the number of
iterations. Every iteration is recorded in the ghost log before the step runs. -/
def drain (doStack : DoStack) : Nat → ScriptEngine → Option ScriptEngine
  | 0, _ => none
  | fuel + 1, e =>
    let r := doStack { e with m_pVM := { e.m_pVM with opLog := e.m_pVM.opLog ++ [VMOp.doStack] } }
    if r.1 then drain doStack fuel r.2 else some r.2

/-- The text of the warning of line 93. -/
def safetyIntWarning : String := "DaedalusVM: Safety int was popped by scriptcode!"

/-- Lines 87-93 of `runFunction`: fetch the return value from the drained VM. -/
def fetchReturn (d : ScriptEngine) : Int × ScriptEngine :=
  -- Only pop if the VM didn't mess up
  if !d.m_pVM.isStackEmpty then
    let r := d.m_pVM.popDataValue
    (r.1, { d with m_pVM := r.2 })
  else
    (0, { d with warnings := d.warnings ++ [safetyIntWarning] })

/-- `ScriptEngine::runFunction(size_t addr)` (lines 74-98). -/
def runFunction (doStack : DoStack) (fuel : Nat) (addr : Nat) (e : ScriptEngine) :
    Except Fault (Int × ScriptEngine) :=
  if addr = 0 then
    .ok (-1, e)
  else
    match drain doStack fuel (placeCall addr e) with
    | none => .error Fault.outOfFuel
    | some d =>
      let r := fetchReturn d
      -- Restore to previous VM-State
      match r.2.m_pVM.popState with
      | none => .error Fault.emptyStateStack
      | some vm => .ok (r.1, { r.2 with m_pVM := vm })

/-- `ScriptEngine::runFunctionBySymIndex` (lines 100-113, profiling compiled out);
`symAddress i` is `getSymbolByIndex(i).address`. -/
def runFunctionBySymIndex (doStack : DoStack) (fuel : Nat) (symAddress : Nat → Nat)
    (symIdx : Nat) (e : ScriptEngine) : Except Fault (Int × ScriptEngine) :=
  runFunction doStack fuel (symAddress symIdx) e

/-- `ScriptEngine::onNPCInitialized` (lines 305-323); `daily_routine` is the field of the
NPC data, `selfIndex` is `getSymbolIndexByName("self")`. -/
def onNPCInitialized (doStack : DoStack) (fuel : Nat) (symAddress : Nat → Nat)
    (selfIndex : Nat) (npc : Nat) (daily_routine : Nat) (e : ScriptEngine) :
    Except Fault ScriptEngine :=
  if daily_routine ≠ 0 then
    let e1 := prepareRunFunction e
    let e2 := { e1 with m_pVM := e1.m_pVM.setInstance "self" npc EInstanceClass.IC_Npc }
    let e3 := { e2 with m_pVM := e2.m_pVM.setCurrentInstance selfIndex }
    match runFunctionBySymIndex doStack fuel symAddress daily_routine e3 with
    | .ok r => .ok r.2
    | .error f => .error f
  else
    .ok e

/-! ## Persistent global state codec -/

/-- Modelled from the spec: the type tag of a symbol (`Daedalus::EParType`), declared outside
`ScriptEngine.cpp`. -/
inductive EParType
  | EParType_Void
  | EParType_Float
  | EParType_Int
  | EParType_String
  | EParType_Class
  | EParType_Func
  | EParType_Prototype
  | EParType_Instance
  deriving DecidableEq, Repr

/-- The values of the machine type `int32_t`, the element type of `PARSymbol::intData`
(line 541). -/
abbrev int32_t := { v : Int // -2147483648 ≤ v ∧ v < 2147483648 }

/-- Conversion of a json integer to `int32_t`, as done by `push_back(p[1])` on line 563:
the value modulo `2^32`, in the signed range. -/
def toInt32 (v : Int) : int32_t :=
  ⟨(v + 2147483648) % 4294967296 - 2147483648, by omega⟩

instance (n : Nat) : OfNat int32_t n := ⟨toInt32 n⟩

/-- The fields of `Daedalus::PARSymbol` read or written by `ScriptEngine.cpp`:
`name`, `properties.elemProps.flags`, `properties.elemProps.type`, `intData`, `address`. -/
structure PARSymbol where
  name : String
  flags : Nat
  type : EParType
  intData : List int32_t
  address : Nat
  deriving DecidableEq, Repr

/-- One element of the json array `j["globals"]`: `[0]` = symbol name, `[1]` = value, a json
integer. -/
abbrev GlobalEntry := String × Int

/-- `ScriptEngine::exportScriptEngine` (lines 525-546): `symbols` is
`dat.getSymTable().symbols`, `globals` the content of `j["globals"]` on entry; the result is
its content on exit. -/
def exportScriptEngine (symbols : List PARSymbol) (globals : List GlobalEntry) :
    List GlobalEntry :=
  symbols.foldl
    (fun out sym =>
      -- Only flat integers
      if sym.flags = 0 ∧ sym.type = EParType.EParType_Int then
        -- Write arrays in order
        sym.intData.foldl (fun o i => o ++ [(sym.name, i.val)]) out
      else out)
    globals

/-- Modelled from the spec: `dat.getSymbolByName(name)` resolves a name to the first symbol
of the table that carries it and hands out a reference to it; `f` is the mutation made through
that reference. The access fails when no symbol has the name (a precondition failure). -/
def modifySymbolByName (f : PARSymbol → PARSymbol) (name : String) :
    List PARSymbol → Option (List PARSymbol)
  | [] => none
  | s :: rest =>
    if s.name = name then some (f s :: rest)
    else (modifySymbolByName f name rest).map (fun t => s :: t)

/-- Line 557: `intData.clear()`. -/
def clearIntData (s : PARSymbol) : PARSymbol := { s with intData := [] }

/-- Line 563: `intData.push_back(v)`, the json integer `v` being converted to `int32_t`. -/
def pushBackIntData (v : Int) (s : PARSymbol) : PARSymbol :=
  { s with intData := s.intData ++ [toInt32 v] }

/-- `ScriptEngine::importScriptEngine` (lines 548-566): two passes over `j["globals"]`. -/
def importScriptEngine (symbols : List PARSymbol) (globals : List GlobalEntry) :
    Option (List PARSymbol) := do
  -- Clear any value already inside
  let cleared ← globals.foldlM (fun t p => modifySymbolByName clearIntData p.1 t) symbols
  -- Assign imported values
  globals.foldlM (fun t p => modifySymbolByName (pushBackIntData p.2) p.1 t) cleared

/-- The documented single-pass import of the specification: for each (name, value) pair, on
the first occurrence of a name clear that symbol's payload, then append the value. `seen`
holds the names met so far. -/
def importSinglePassAux :
    List String → List PARSymbol → List GlobalEntry → Option (List PARSymbol)
  | _, t, [] => some t
  | seen, t, p :: ps => do
    let t1 ← if p.1 ∈ seen then some t else modifySymbolByName clearIntData p.1 t
    let t2 ← modifySymbolByName (pushBackIntData p.2) p.1 t1
    importSinglePassAux (p.1 :: seen) t2 ps

/-- The documented single-pass import, started with no name seen. -/
def importSinglePass (symbols : List PARSymbol) (globals : List GlobalEntry) :
    Option (List PARSymbol) :=
  importSinglePassAux [] symbols globals

/-- The payload of the symbol that `getSymbolByName(name)` resolves to. -/
def intDataByName (symbols : List PARSymbol) (name : String) : Option (List int32_t) :=
  (symbols.find? (fun s => s.name = name)).map (fun s => s.intData)

/-- The values tagged with `name` in a list of entries, in order. -/
def valuesTagged (globals : List GlobalEntry) (name : String) : List Int :=
  (globals.filter (fun p => p.1 = name)).map (fun p => p.2)

/-- The symbols the export persists: no flag set and of integer type. -/
def isFlatInt (sym : PARSymbol) : Bool :=
  decide (sym.flags = 0 ∧ sym.type = EParType.EParType_Int)

/-! ### Auxiliary notions for reasoning about the codec -/

/-- Total counterpart of `modifySymbolByName`: the table is left alone when the name is
unknown. -/
def updFirst (f : PARSymbol → PARSymbol) (name : String) : List PARSymbol → List PARSymbol
  | [] => []
  | s :: rest => if s.name = name then f s :: rest else s :: updFirst f name rest

/-- A mutation addressed to a symbol name. -/
abbrev SymOp := String × (PARSymbol → PARSymbol)

/-- Apply addressed mutations in order. -/
def applyOps (t : List PARSymbol) (ops : List SymOp) : List PARSymbol :=
  ops.foldl (fun t op => updFirst op.2 op.1 t) t

/-- The combined effect on one symbol of the mutations addressed to the name `n`. -/
def effect (ops : List SymOp) (n : String) (x : PARSymbol) : PARSymbol :=
  (ops.filter (fun op => op.1 = n)).foldl (fun x op => op.2 x) x

/-- None of the mutations renames a symbol. -/
def NamePreserving (ops : List SymOp) : Prop :=
  ∀ op ∈ ops, ∀ x, (op.2 x).name = x.name

/-- The mutations of the two passes of `importScriptEngine`. -/
def twoPassOps (globals : List GlobalEntry) : List SymOp :=
  globals.map (fun p => (p.1, clearIntData)) ++
    globals.map (fun p => (p.1, pushBackIntData p.2))

/-- The mutations of the single-pass import. -/
def singlePassOps : List String → List GlobalEntry → List SymOp
  | _, [] => []
  | seen, p :: ps =>
    (if p.1 ∈ seen then [] else [(p.1, clearIntData)]) ++
      (p.1, pushBackIntData p.2) :: singlePassOps (p.1 :: seen) ps

/-- The entries `exportScriptEngine` writes for one symbol. -/
def entriesOf (sym : PARSymbol) : List GlobalEntry :=
  sym.intData.map (fun v => (sym.name, v.val))

/-! ## Item use -/

/-- The fields of `Daedalus::GEngineClasses::C_Item` read by `ScriptEngine.cpp`. Strings
are lists of characters. -/
structure C_Item where
  mainflag : Nat
  visual_change : List Char
  on_state : Fin 4 → Int
  on_equip : Int

/-- The two sub-types of `EventMessages::ManipulateMessage` that `useItemOn` assigns. -/
inductive ManipulateSubType
  | ST_UseItem
  | ST_EquipItem
  deriving DecidableEq, Repr

/-- The fields of `EventMessages::ManipulateMessage` set by `useItemOn`. -/
structure ManipulateMessage where
  targetItem : Nat
  subType : ManipulateSubType
  deriving DecidableEq, Repr

/-- `ScriptEngine::useItemOn` (lines 419-445). `getItem` is `getGameState().getItem`,
`em h` is the message queue of entity `h`; `onMessage` appends to it. The result is the
returned flag and the queues afterwards. -/
def useItemOn (getItem : Nat → C_Item) (hitem : Nat) (hnpc : Nat)
    (em : Nat → List ManipulateMessage) : Bool × (Nat → List ManipulateMessage) :=
  let data := getItem hitem
  -- Check if we can even use this item
  if data.on_state 0 = 0 ∧ data.on_equip = 0 then
    -- Nothing to use here
    (false, em)
  else
    let subType :=
      if data.on_state 0 ≠ 0 then ManipulateSubType.ST_UseItem
      else ManipulateSubType.ST_EquipItem
    let msg : ManipulateMessage := { targetItem := hitem, subType := subType }
    (true, Function.update em hnpc (em hnpc ++ [msg]))

/-! ## Inventory insertion -/

/-- The category bits of `C_Item` tested by `onInventoryItemInserted`; their values are
declared outside `ScriptEngine.cpp`. -/
structure ItemCategories where
  ITM_CAT_NF : Nat
  ITM_CAT_FF : Nat
  ITM_CAT_ARMOR : Nat

/-- World mutations made by `onInventoryItemInserted`. -/
inductive WorldOp
  | NPC_SetBodyMesh (e : Nat) (visual : List Char)
  | NPC_EquipWeapon (e : Nat) (item : Nat)
  deriving DecidableEq, Repr

/-- Width of `size_t`. -/
def SIZE_BITS : Nat := 64

/-- `std::string::substr(pos, count)`: throws `out_of_range` (here `none`) when
`pos > size()`, otherwise returns the characters `[pos, min(pos + count, size()))`. -/
def substr (s : List Char) (pos count : Nat) : Option (List Char) :=
  if pos > s.length then none else some ((s.drop pos).take count)

/-- Line 292: `visual_change.substr(0, visual_change.size()-4) + ".MDM"`, the subtraction
being done in `size_t`. -/
def bodyMeshName (visual_change : List Char) : Option (List Char) :=
  (substr visual_change 0 ((visual_change.length + 2 ^ SIZE_BITS - 4) % 2 ^ SIZE_BITS)).map
    (fun base => base ++ ".MDM".toList)

/-- `ScriptEngine::onInventoryItemInserted` (lines 274-303). `entity` is the result of
`getEntityFromScriptInstance` (`none` when the handle is not valid). The result lists the
world mutations in order; `none` stands for an exception thrown by `substr`. -/
def onInventoryItemInserted (cats : ItemCategories) (itemData : C_Item) (item : Nat)
    (entity : Option Nat) : Option (List WorldOp) :=
  match entity with
  | none => some []
  | some e =>
    let armor : Option (List WorldOp) :=
      if itemData.mainflag &&& cats.ITM_CAT_ARMOR ≠ 0 then
        -- Only switch the body-armor
        (bodyMeshName itemData.visual_change).map (fun visual => [WorldOp.NPC_SetBodyMesh e visual])
      else some []
    let weapon : List WorldOp :=
      if itemData.mainflag &&& (cats.ITM_CAT_NF ||| cats.ITM_CAT_FF) ≠ 0 then
        [WorldOp.NPC_EquipWeapon e item]
      else []
    armor.map (fun ops => ops ++ weapon)

/-- The name asked for by the specification: the asset name with its file extension (the
last `.` and everything after it) removed; a name without `.` has no extension. -/
def stripExtension (name : List Char) : List Char :=
  if '.' ∈ name then (name.reverse.dropWhile (fun c => c ≠ '.')).tail.reverse else name

/-- The name asked for by the specification: the file extension replaced by `.MDM`. -/
def replaceExtension (name : List Char) : List Char :=
  stripExtension name ++ ".MDM".toList

/-! ## Concrete inputs used by the closed statements -/

/-- An idle engine: empty run-state, empty save-stack, nothing logged. -/
def idleEngine : ScriptEngine :=
  { m_pVM := { run := { stack := [], callStack := [], pc := 0, instances := [],
                        currentInstance := 0 },
               stateStack := [], opLog := [] },
    warnings := [] }

/-- An engine in the middle of an invocation: values on the operand stack, bound instances,
and one snapshot on the save-stack. -/
def busyEngine : ScriptEngine :=
  { m_pVM := { run := { stack := [42, 7], callStack := [3], pc := 12,
                        instances := [("self", 1, EInstanceClass.IC_Npc),
                                      ("hero", 2, EInstanceClass.IC_Npc)],
                        currentInstance := 4 },
               stateStack := [idleEngine.m_pVM.run], opLog := [] },
    warnings := [] }

/-- A table with two integer globals, one of them an array, a flagged symbol and a function. -/
def sampleTable : List PARSymbol :=
  [ { name := "KAPITEL", flags := 0, type := EParType.EParType_Int, intData := [3], address := 0 },
    { name := "MIS_STATE", flags := 0, type := EParType.EParType_Int, intData := [1, 0, 2],
      address := 0 },
    { name := "LOG_RUNNING", flags := 1, type := EParType.EParType_Int, intData := [1],
      address := 0 },
    { name := "STARTUP_WORLD", flags := 0, type := EParType.EParType_Func, intData := [],
      address := 40 } ]

/-- A source of persisted values for `sampleTable`. -/
def sampleSource : List GlobalEntry :=
  [("MIS_STATE", 5), ("KAPITEL", 4), ("MIS_STATE", 6)]

/-- A source whose value for `KAPITEL` is one above the largest `int32_t`. -/
def wideSource : List GlobalEntry :=
  [("KAPITEL", 2147483648)]

/-- A table in which two integer globals carry the same name. -/
def clashingTable : List PARSymbol :=
  [ { name := "A", flags := 0, type := EParType.EParType_Int, intData := [1], address := 0 },
    { name := "A", flags := 0, type := EParType.EParType_Int, intData := [2], address := 0 } ]

/-- Category bits as in the game scripts: near-combat, far-combat and armor. -/
def sampleCats : ItemCategories := { ITM_CAT_NF := 2, ITM_CAT_FF := 4, ITM_CAT_ARMOR := 16 }

/-- An armor whose visual-change asset has a three-character extension. -/
def plateArmor : C_Item :=
  { mainflag := 16, visual_change := "ARMOR_H.ASC".toList, on_state := fun _ => 0, on_equip := 0 }

/-- An armor whose visual-change asset has a two-character extension. -/
def shortExtArmor : C_Item :=
  { mainflag := 16, visual_change := "ARM.MS".toList, on_state := fun _ => 0, on_equip := 0 }

/-- A callee that empties the operand stack, rebinds `self` and `hero`, and finishes. -/
def stackEmptyingStep : DoStack := fun e =>
  (false, { e with m_pVM := { e.m_pVM with
    run := { e.m_pVM.run with stack := [],
                              instances := [("self", 9, EInstanceClass.IC_Item),
                                            ("hero", 9, EInstanceClass.IC_Npc)] } } })

/-- A callee that leaves an extra value on the operand stack and finishes. -/
def valuePushingStep : DoStack := fun e =>
  (false, { e with m_pVM := { e.m_pVM with
    run := { e.m_pVM.run with stack := 5 :: e.m_pVM.run.stack } } })

/-- A callee whose only instruction raises the post-construction event of NPC 3, whose daily
routine (symbol 9, address 5) is run by `onNPCInitialized` with `stackEmptyingStep` as
its script code. -/
def npcSpawningStep : DoStack := fun e =>
  match onNPCInitialized stackEmptyingStep 1 (fun _ => 5) 0 3 9 e with
  | .ok e1 => (false, e1)
  | .error _ => (false, e)

/-- A callee whose only instruction raises the post-construction event of NPC 3, whose daily
routine is symbol 9 with the null address 0. -/
def nullRoutineSpawningStep : DoStack := fun e =>
  match onNPCInitialized stackEmptyingStep 1 (fun _ => 0) 0 3 9 e with
  | .ok e1 => (false, e1)
  | .error _ => (false, e)

end REGoth

/-! # Theorems -/

namespace REGoth

/-! ## Call protocol -/

theorem placeCall_stateStack (addr : Nat) (e : ScriptEngine) :
    (placeCall addr e).m_pVM.stateStack = e.m_pVM.stateStack := rfl

theorem fetchReturn_stateStack (d : ScriptEngine) :
    (fetchReturn d).2.m_pVM.stateStack = d.m_pVM.stateStack := by
  unfold fetchReturn
  split
  · unfold DaedalusVM.popDataValue
    split <;> rfl
  · rfl

/-- A drain whose steps keep the save-stack keeps the save-stack. -/
theorem drain_stateStack (doStack : DoStack)
    (hsave : ∀ e, (doStack e).2.m_pVM.stateStack = e.m_pVM.stateStack) :
    ∀ (fuel : Nat) (e d : ScriptEngine), drain doStack fuel e = some d →
      d.m_pVM.stateStack = e.m_pVM.stateStack := by
  intro fuel
  induction fuel with
  | zero => intro e d h; simp [drain] at h
  | succ n ih =>
    intro e d h
    simp only [drain] at h
    split at h
    · rw [ih _ _ h, hsave]
    · cases h
      rw [hsave]

/-- More fuel does not change the outcome of a drain that finished. -/
theorem drain_mono (doStack : DoStack) :
    ∀ (fuel k : Nat) (e d : ScriptEngine), drain doStack fuel e = some d →
      drain doStack (fuel + k) e = some d := by
  intro fuel
  induction fuel with
  | zero => intro k e d h; simp [drain] at h
  | succ n ih =>
    intro k e d h
    have hk : n + 1 + k = (n + k) + 1 := by omega
    rw [hk]
    simp only [drain] at h ⊢
    split
    · rename_i hc
      rw [if_pos hc] at h
      exact ih k _ _ h
    · rename_i hc
      rw [if_neg hc] at h
      exact h

/-- The outcome of `runFunction` at a non-null address, from the drained state. -/
theorem runFunction_of_drain (doStack : DoStack) (fuel addr : Nat) (e d : ScriptEngine)
    (snap : VMState) (rest : List VMState) (haddr : addr ≠ 0)
    (hdrain : drain doStack fuel (placeCall addr e) = some d)
    (hsnap : d.m_pVM.stateStack = snap :: rest) :
    runFunction doStack fuel addr e =
      .ok ((fetchReturn d).1,
        { m_pVM := { run := snap, stateStack := rest,
                     opLog := (fetchReturn d).2.m_pVM.opLog ++ [VMOp.popState] },
          warnings := (fetchReturn d).2.warnings }) := by
  have h2 : (fetchReturn d).2.m_pVM.stateStack = snap :: rest := by
    rw [fetchReturn_stateStack, hsnap]
  simp only [runFunction, if_neg haddr, hdrain, DaedalusVM.popState, h2]

/-- The save-stack and operand stack right after `prepareRunFunction`. -/
theorem prepareRunFunction_vm (s : ScriptEngine) :
    (prepareRunFunction s).m_pVM.stateStack = s.m_pVM.run :: s.m_pVM.stateStack ∧
    (prepareRunFunction s).m_pVM.run.stack = 0 :: s.m_pVM.run.stack := ⟨rfl, rfl⟩

/-- A paired invocation at a non-null address whose drain finishes restores the run-state
and the save-stack, whatever was done to the run-state between the snapshot and the call. -/
theorem runFunction_restores (doStack : DoStack)
    (hsave : ∀ e, (doStack e).2.m_pVM.stateStack = e.m_pVM.stateStack)
    (fuel addr : Nat) (e : ScriptEngine) (snap : VMState) (rest : List VMState)
    (haddr : addr ≠ 0) (hst : e.m_pVM.stateStack = snap :: rest)
    (hhalt : (drain doStack fuel (placeCall addr e)).isSome = true) :
    ∃ ret s1, runFunction doStack fuel addr e = .ok (ret, s1) ∧
      s1.m_pVM.run = snap ∧ s1.m_pVM.stateStack = rest := by
  obtain ⟨d, hd⟩ := Option.isSome_iff_exists.mp hhalt
  have hds : d.m_pVM.stateStack = snap :: rest := by
    rw [drain_stateStack doStack hsave fuel _ d hd, placeCall_stateStack, hst]
  exact ⟨_, _, runFunction_of_drain doStack fuel addr e d snap rest haddr hd hds, rfl, rfl⟩

/-- Restoration under a balanced callee: for every engine state `s`, every non-null address
and every callee that leaves the save-stack as it found it (whatever it does to the operand
stack and the instance bindings) and whose drain finishes, `prepareRunFunction` followed by
`runFunction(addr)` returns and leaves the run-state (operand stack, call stack, instance
bindings) and the save-stack equal to those of `s`; the same holds for the nested invocation
made by `onNPCInitialized`, which rebinds `self` after the snapshot, when the routine has a
non-null address. -/
theorem balanced_callee_restores_state (doStack : DoStack)
    (hsave : ∀ e, (doStack e).2.m_pVM.stateStack = e.m_pVM.stateStack)
    (s : ScriptEngine) (fuel addr : Nat) (haddr : addr ≠ 0)
    (hhalt : (drain doStack fuel (placeCall addr (prepareRunFunction s))).isSome = true) :
    (∃ ret s1, runFunction doStack fuel addr (prepareRunFunction s) = .ok (ret, s1) ∧
      s1.m_pVM.run = s.m_pVM.run ∧ s1.m_pVM.stateStack = s.m_pVM.stateStack) ∧
    (∀ (symAddress : Nat → Nat) (selfIndex npc daily_routine : Nat),
      daily_routine ≠ 0 → symAddress daily_routine = addr →
      (drain doStack fuel (placeCall addr
        { m_pVM := (((prepareRunFunction s).m_pVM.setInstance "self" npc
                      EInstanceClass.IC_Npc).setCurrentInstance selfIndex),
          warnings := s.warnings })).isSome = true →
      ∃ s1, onNPCInitialized doStack fuel symAddress selfIndex npc daily_routine s = .ok s1 ∧
        s1.m_pVM.run = s.m_pVM.run ∧ s1.m_pVM.stateStack = s.m_pVM.stateStack) := by
  refine ⟨?_, ?_⟩
  · exact runFunction_restores doStack hsave fuel addr (prepareRunFunction s) s.m_pVM.run
      s.m_pVM.stateStack haddr rfl hhalt
  · intro symAddress selfIndex npc daily_routine hr hsym hh
    obtain ⟨ret, s1, hrun, h1, h2⟩ := runFunction_restores doStack hsave fuel addr
      { m_pVM := (((prepareRunFunction s).m_pVM.setInstance "self" npc
                      EInstanceClass.IC_Npc).setCurrentInstance selfIndex),
        warnings := s.warnings } s.m_pVM.run s.m_pVM.stateStack haddr rfl hh
    refine ⟨s1, ?_, h1, h2⟩
    have hrun2 : runFunction doStack fuel (symAddress daily_routine)
        { m_pVM := (((prepareRunFunction s).m_pVM.setInstance "self" npc
                      EInstanceClass.IC_Npc).setCurrentInstance selfIndex),
          warnings := (prepareRunFunction s).warnings } = .ok (ret, s1) := by
      rw [hsym]; exact hrun
    simp only [onNPCInitialized, if_pos hr, runFunctionBySymIndex, hrun2]

/-- Instance of the restoration: a callee that raises the post-construction event of an NPC,
whose daily routine (of non-null address) empties the operand stack and rebinds `self` and
`hero`, run from a busy engine. -/
theorem balanced_callee_restores_state_example :
    (∃ ret s1, runFunction npcSpawningStep 1 8 (prepareRunFunction busyEngine) = .ok (ret, s1) ∧
      s1.m_pVM.run = busyEngine.m_pVM.run ∧
      s1.m_pVM.stateStack = busyEngine.m_pVM.stateStack) :=
  (balanced_callee_restores_state npcSpawningStep (fun _ => rfl) busyEngine 1 8
    (by decide) (by rfl)).1

/-- C1 (failing input): a callee that raises the post-construction event of an NPC whose daily
routine has the null address. The nested `prepareRunFunction` pushes a snapshot that the
nested `runFunction(0)` does not release, so the outer `runFunction(8)` restores the nested
snapshot: from an engine with operand stack `[42, 7]` and one saved snapshot, the paired
invocation ends with operand stack `[0, 42, 7]` and two saved snapshots. -/
theorem nested_null_routine_breaks_restore :
    (runFunction nullRoutineSpawningStep 1 8 (prepareRunFunction busyEngine)).toOption.map
      (fun r => (r.1, r.2.m_pVM.run.stack, r.2.m_pVM.stateStack.length)) =
        some (0, [0, 42, 7], 2) ∧
    (busyEngine.m_pVM.run.stack, busyEngine.m_pVM.stateStack.length) = ([42, 7], 1) ∧
    (runFunction nullRoutineSpawningStep 1 8 (prepareRunFunction busyEngine)).toOption.map
      (fun r => r.2.m_pVM.run) ≠ some busyEngine.m_pVM.run := by
  refine ⟨by decide, by decide, by decide⟩

/-- C2 (failing input): after `prepareRunFunction`, `runFunction(0)` returns -1 through the
early return of line 77 and never reaches `popState`: the snapshot stays on the save-stack
and the seeded 0 stays on the operand stack. -/
theorem runFunction_null_keeps_snapshot :
    ∃ s1, runFunction stackEmptyingStep 1 0 (prepareRunFunction idleEngine) = .ok (-1, s1) ∧
      s1.m_pVM.stateStack.length = idleEngine.m_pVM.stateStack.length + 1 ∧
      s1.m_pVM.run.stack = 0 :: idleEngine.m_pVM.run.stack ∧
      s1.m_pVM.run ≠ idleEngine.m_pVM.run :=
  ⟨prepareRunFunction idleEngine, rfl, rfl, rfl, by decide⟩

/-- C3: `runFunction(0)` returns -1 and leaves the whole engine, ghost operation log
included, as it was: no call is placed, the call stack is not cleared, `doStack` is not
stepped and nothing is popped. -/
theorem runFunction_null_is_noop (doStack : DoStack) (fuel : Nat) (e : ScriptEngine) :
    runFunction doStack fuel 0 e = .ok (-1, e) ∧
    (runFunction doStack fuel 0 e).toOption.map (fun r => r.2.m_pVM.opLog) =
      some e.m_pVM.opLog := by
  have h : runFunction doStack fuel 0 e = .ok (-1, e) := by simp [runFunction]
  rw [h]
  exact ⟨rfl, rfl⟩

/-- C4: at a non-null address, with `d` the engine after the drain and the snapshot of the
paired `prepareRunFunction` on top of the save-stack: when the operand stack of `d` is
`v :: tl`, exactly `v` is popped, nothing is logged as a warning and `v` is returned; when it
is empty nothing is popped, exactly one warning is appended and 0 is returned; in both cases
`runFunction` returns normally. -/
theorem runFunction_return_value (doStack : DoStack) (fuel addr : Nat) (e d : ScriptEngine)
    (snap : VMState) (rest : List VMState) (haddr : addr ≠ 0)
    (hdrain : drain doStack fuel (placeCall addr e) = some d)
    (hsnap : d.m_pVM.stateStack = snap :: rest) :
    (fetchReturn d =
      match d.m_pVM.run.stack with
      | v :: tl =>
        (v, { d with m_pVM := { d.m_pVM with run := { d.m_pVM.run with stack := tl },
                                             opLog := d.m_pVM.opLog ++ [VMOp.popDataValue] } })
      | [] => (0, { d with warnings := d.warnings ++ [safetyIntWarning] })) ∧
    runFunction doStack fuel addr e =
      match d.m_pVM.run.stack with
      | v :: _ =>
        .ok (v, { m_pVM := { run := snap, stateStack := rest,
                             opLog := d.m_pVM.opLog ++ [VMOp.popDataValue, VMOp.popState] },
                  warnings := d.warnings })
      | [] =>
        .ok (0, { m_pVM := { run := snap, stateStack := rest,
                             opLog := d.m_pVM.opLog ++ [VMOp.popState] },
                  warnings := d.warnings ++ [safetyIntWarning] }) := by
  rw [runFunction_of_drain doStack fuel addr e d snap rest haddr hdrain hsnap]
  cases hstk : d.m_pVM.run.stack with
  | nil =>
    have hf : fetchReturn d = (0, { d with warnings := d.warnings ++ [safetyIntWarning] }) := by
      simp [fetchReturn, DaedalusVM.isStackEmpty, hstk]
    simp [hf]
  | cons v tl =>
    have hf : fetchReturn d =
        (v, { d with m_pVM := { d.m_pVM with run := { d.m_pVM.run with stack := tl },
                                             opLog := d.m_pVM.opLog ++ [VMOp.popDataValue] } }) := by
      simp [fetchReturn, DaedalusVM.isStackEmpty, DaedalusVM.popDataValue, hstk]
    simp [hf]

/-- Witness for C4: a callee that empties the operand stack; the call returns 0 with exactly
one warning. -/
theorem runFunction_return_value_witness :
    runFunction stackEmptyingStep 1 8 (prepareRunFunction busyEngine) =
      .ok (0, { m_pVM := { run := busyEngine.m_pVM.run,
                           stateStack := busyEngine.m_pVM.stateStack,
                           opLog := [VMOp.pushState, VMOp.pushInt 0, VMOp.doCallOperation 8,
                                     VMOp.clearCallStack, VMOp.doStack, VMOp.popState] },
                warnings := [safetyIntWarning] }) :=
  (runFunction_return_value stackEmptyingStep 1 8 (prepareRunFunction busyEngine)
    ((drain stackEmptyingStep 1 (placeCall 8 (prepareRunFunction busyEngine))).getD idleEngine)
    busyEngine.m_pVM.run busyEngine.m_pVM.stateStack (by decide) (by rfl) (by rfl)).2

/-! ## Persistent global state codec -/

theorem foldl_pushEntry (n : String) (l : List int32_t) (out : List GlobalEntry) :
    l.foldl (fun o i => o ++ [(n, i.val)]) out = out ++ l.map (fun v => (n, v.val)) := by
  induction l generalizing out with
  | nil => simp
  | cons a l ih => simp [List.foldl_cons, ih]

theorem exportScriptEngine_eq (symbols : List PARSymbol) (globals : List GlobalEntry) :
    exportScriptEngine symbols globals =
      globals ++ (symbols.filter isFlatInt).flatMap entriesOf := by
  unfold exportScriptEngine
  induction symbols generalizing globals with
  | nil => simp
  | cons s rest ih =>
    rw [List.foldl_cons, ih]
    by_cases h : s.flags = 0 ∧ s.type = EParType.EParType_Int
    · have hf : isFlatInt s = true := by simp [isFlatInt, h]
      rw [if_pos h, foldl_pushEntry, List.filter_cons, if_pos hf, List.flatMap_cons,
        List.append_assoc]
      rfl
    · have hf : isFlatInt s = false := by simp only [isFlatInt, decide_eq_false_iff_not]; exact h
      simp [if_neg h, List.filter_cons, hf]

/-- C6: the entries `exportScriptEngine` appends to `globals` are exactly the concatenation,
over the symbols in table order that have no flag and integer type, of the pairs
(name, v) for the elements v of the payload in array order; other symbols contribute nothing
and the entries already present stay in front. -/
theorem export_appends_flat_int_payloads (symbols : List PARSymbol)
    (globals : List GlobalEntry) :
    exportScriptEngine symbols globals =
      globals ++
        (symbols.filter (fun sym => decide (sym.flags = 0 ∧ sym.type = EParType.EParType_Int))).flatMap
          (fun sym => sym.intData.map (fun v => (sym.name, v.val))) :=
  exportScriptEngine_eq symbols globals

theorem modifySymbolByName_eq (f : PARSymbol → PARSymbol) (name : String) :
    ∀ t : List PARSymbol, name ∈ t.map (fun s => s.name) →
      modifySymbolByName f name t = some (updFirst f name t) := by
  intro t
  induction t with
  | nil => intro h; simp at h
  | cons s rest ih =>
    intro h
    by_cases hs : s.name = name
    · simp [modifySymbolByName, updFirst, hs]
    · have h2 : name ∈ rest.map (fun s => s.name) := by
        simp only [List.map_cons, List.mem_cons] at h
        rcases h with h | h
        · exact absurd h.symm hs
        · exact h
      simp [modifySymbolByName, updFirst, hs, ih h2]

theorem updFirst_names (f : PARSymbol → PARSymbol) (name : String)
    (hf : ∀ x, (f x).name = x.name) :
    ∀ t : List PARSymbol, (updFirst f name t).map (fun s => s.name) = t.map (fun s => s.name) := by
  intro t
  induction t with
  | nil => rfl
  | cons s rest ih =>
    by_cases hs : s.name = name
    · simp [updFirst, hs, hf]
    · simp [updFirst, hs, ih]

theorem applyOps_nil (t : List PARSymbol) : applyOps t [] = t := rfl

theorem applyOps_cons_op (t : List PARSymbol) (op : SymOp) (ops : List SymOp) :
    applyOps t (op :: ops) = applyOps (updFirst op.2 op.1 t) ops := rfl

theorem applyOps_append (t : List PARSymbol) (ops1 ops2 : List SymOp) :
    applyOps t (ops1 ++ ops2) = applyOps (applyOps t ops1) ops2 := by
  simp [applyOps, List.foldl_append]

theorem NamePreserving.tail {op : SymOp} {ops : List SymOp} (h : NamePreserving (op :: ops)) :
    NamePreserving ops := fun o ho x => h o (List.mem_cons_of_mem _ ho) x

theorem NamePreserving.filter {ops : List SymOp} (h : NamePreserving ops)
    (q : SymOp → Bool) : NamePreserving (ops.filter q) :=
  fun o ho x => h o (List.mem_of_mem_filter ho) x

theorem applyOps_names (ops : List SymOp) (h : NamePreserving ops) :
    ∀ t : List PARSymbol, (applyOps t ops).map (fun s => s.name) = t.map (fun s => s.name) := by
  induction ops with
  | nil => intro t; rfl
  | cons op ops ih =>
    intro t
    rw [applyOps_cons_op, ih h.tail, updFirst_names _ _ (h op (List.mem_cons_self _ _))]

/-- Addressed mutations act on the head symbol through the ones addressed to its name, and on
the rest of the table through the others. -/
theorem applyOps_cons (ops : List SymOp) (h : NamePreserving ops) :
    ∀ (s : PARSymbol) (rest : List PARSymbol),
      applyOps (s :: rest) ops =
        effect ops s.name s :: applyOps rest (ops.filter (fun op => op.1 ≠ s.name)) := by
  induction ops with
  | nil => intro s rest; simp [applyOps, effect]
  | cons op ops ih =>
    intro s rest
    have hop := h op (List.mem_cons_self _ _)
    rw [applyOps_cons_op]
    by_cases hs : s.name = op.1
    · have hn : (op.2 s).name = s.name := hop s
      have e1 : updFirst op.2 op.1 (s :: rest) = op.2 s :: rest := by simp [updFirst, hs]
      rw [e1, ih h.tail, hn]
      simp [effect, List.filter_cons, hs]
    · have hs2 : ¬ op.1 = s.name := fun e => hs e.symm
      have e1 : updFirst op.2 op.1 (s :: rest) = s :: updFirst op.2 op.1 rest := by
        simp [updFirst, hs]
      rw [e1, ih h.tail]
      simp [effect, List.filter_cons, hs2, applyOps_cons_op]

theorem effect_name (ops : List SymOp) (h : NamePreserving ops) (n : String) :
    ∀ x : PARSymbol, (effect ops n x).name = x.name := by
  induction ops with
  | nil => intro x; rfl
  | cons op ops ih =>
    intro x
    by_cases hn : op.1 = n
    · have : effect (op :: ops) n x = effect ops n (op.2 x) := by
        simp [effect, List.filter_cons, hn]
      rw [this, ih h.tail, h op (List.mem_cons_self _ _)]
    · have : effect (op :: ops) n x = effect ops n x := by
        simp [effect, List.filter_cons, hn]
      rw [this, ih h.tail]

theorem effect_filter_ne (ops : List SymOp) (m n : String) (hmn : n ≠ m) (x : PARSymbol) :
    effect (ops.filter (fun op => op.1 ≠ m)) n x = effect ops n x := by
  unfold effect
  rw [List.filter_filter]
  congr 1
  apply List.filter_congr
  intro op _
  by_cases h : op.1 = n
  · have : op.1 ≠ m := by rw [h]; exact hmn
    simp [h, hmn]
  · simp [h]

/-- Lookup by name commutes with addressed mutations. -/
theorem applyOps_find (n : String) :
    ∀ (t : List PARSymbol) (ops : List SymOp), NamePreserving ops →
      (applyOps t ops).find? (fun s => s.name = n) =
        (t.find? (fun s => s.name = n)).map (effect ops n) := by
  intro t
  induction t with
  | nil =>
    intro ops h
    have : applyOps [] ops = [] := by
      have := applyOps_names ops h []
      simpa using this
    simp [this]
  | cons s rest ih =>
    intro ops h
    rw [applyOps_cons ops h]
    by_cases hs : s.name = n
    · simp [List.find?_cons, hs, effect_name ops h]
    · have h1 : (effect ops s.name s).name ≠ n := by rw [effect_name ops h]; exact hs
      rw [List.find?_cons, List.find?_cons]
      simp only [h1, hs, decide_False]
      rw [ih _ (h.filter _)]
      congr 1
      funext x
      exact effect_filter_ne ops s.name n (fun e => hs e.symm) x

/-- Tables on which lookups addressed to every name agree are obtained alike. -/
theorem applyOps_congr :
    ∀ (t : List PARSymbol) (ops1 ops2 : List SymOp), NamePreserving ops1 → NamePreserving ops2 →
      (∀ n x, effect ops1 n x = effect ops2 n x) → applyOps t ops1 = applyOps t ops2 := by
  intro t
  induction t with
  | nil =>
    intro ops1 ops2 h1 h2 _
    have e1 : applyOps [] ops1 = [] := by simpa using applyOps_names ops1 h1 []
    have e2 : applyOps [] ops2 = [] := by simpa using applyOps_names ops2 h2 []
    rw [e1, e2]
  | cons s rest ih =>
    intro ops1 ops2 h1 h2 he
    rw [applyOps_cons ops1 h1, applyOps_cons ops2 h2, he]
    congr 1
    apply ih _ _ (h1.filter _) (h2.filter _)
    intro n x
    by_cases hn : n = s.name
    · subst hn
      have z : ∀ ops : List SymOp,
          effect (ops.filter (fun op => op.1 ≠ s.name)) s.name x = x := by
        intro ops
        unfold effect
        rw [List.filter_filter]
        have : ops.filter (fun op => (decide (op.1 = s.name) && decide (op.1 ≠ s.name))) = [] := by
          apply List.filter_eq_nil_iff.mpr
          intro op _
          by_cases h : op.1 = s.name <;> simp [h]
        rw [this]
        rfl
      rw [z, z]
    · rw [effect_filter_ne ops1 s.name n hn, effect_filter_ne ops2 s.name n hn, he]

/-- A symbol whose name no mutation is addressed to keeps its place and content. -/
theorem applyOps_getElem_of_not_mem (ops : List SymOp) :
    ∀ (t : List PARSymbol) (i : Nat) (x : PARSymbol), t[i]? = some x →
      x.name ∉ ops.map (fun op => op.1) → (applyOps t ops)[i]? = some x := by
  induction ops with
  | nil => intro t i x h _; exact h
  | cons op ops ih =>
    intro t i x h hx
    rw [applyOps_cons_op]
    have hx1 : x.name ≠ op.1 := fun e => hx (by simp [e])
    have hx2 : x.name ∉ ops.map (fun op => op.1) := fun e => hx (by simp [e])
    apply ih _ i x _ hx2
    clear ih hx hx2
    induction t generalizing i with
    | nil => simp at h
    | cons s rest iht =>
      by_cases hs : s.name = op.1
      · cases i with
        | zero =>
          simp only [List.getElem?_cons_zero, Option.some.injEq] at h
          exact absurd (h ▸ hs) hx1
        | succ j => simpa [updFirst, hs] using h
      · cases i with
        | zero => simpa [updFirst, hs] using h
        | succ j =>
          simp only [List.getElem?_cons_succ] at h
          simpa [updFirst, hs] using iht j h

theorem foldlM_modify_eq (g : GlobalEntry → PARSymbol → PARSymbol)
    (hg : ∀ p x, (g p x).name = x.name) :
    ∀ (G : List GlobalEntry) (t : List PARSymbol),
      (∀ p ∈ G, p.1 ∈ t.map (fun s => s.name)) →
      G.foldlM (fun t p => modifySymbolByName (g p) p.1 t) t =
        some (applyOps t (G.map (fun p => (p.1, g p)))) := by
  intro G
  induction G with
  | nil => intro t _; rfl
  | cons p ps ih =>
    intro t h
    rw [List.foldlM_cons, modifySymbolByName_eq _ _ _ (h p (List.mem_cons_self _ _))]
    simp only [Option.some_bind, Option.bind_eq_bind, List.map_cons, applyOps_cons_op]
    apply ih
    intro q hq
    rw [updFirst_names _ _ (hg p)]
    exact h q (List.mem_cons_of_mem _ hq)

theorem namePreserving_twoPassOps (G : List GlobalEntry) : NamePreserving (twoPassOps G) := by
  intro op hop x
  simp only [twoPassOps, List.mem_append, List.mem_map] at hop
  rcases hop with ⟨p, _, rfl⟩ | ⟨p, _, rfl⟩ <;> rfl

theorem namePreserving_singlePassOps :
    ∀ (G : List GlobalEntry) (seen : List String), NamePreserving (singlePassOps seen G) := by
  intro G
  induction G with
  | nil => intro seen op hop; simp [singlePassOps] at hop
  | cons p ps ih =>
    intro seen op hop x
    simp only [singlePassOps, List.mem_append, List.mem_cons] at hop
    rcases hop with h | h | h
    · split at h
      · simp at h
      · simp only [List.mem_singleton] at h
        subst h
        rfl
    · subst h
      rfl
    · exact ih _ op h x

/-- With every name known, `importScriptEngine` succeeds and applies its two passes. -/
theorem importScriptEngine_eq (t : List PARSymbol) (G : List GlobalEntry)
    (h : ∀ p ∈ G, p.1 ∈ t.map (fun s => s.name)) :
    importScriptEngine t G = some (applyOps t (twoPassOps G)) := by
  have hc : ∀ (p : GlobalEntry) (x : PARSymbol), (clearIntData x).name = x.name :=
    fun _ _ => rfl
  have hp : ∀ (p : GlobalEntry) (x : PARSymbol), (pushBackIntData p.2 x).name = x.name :=
    fun _ _ => rfl
  unfold importScriptEngine
  rw [foldlM_modify_eq (fun _ => clearIntData) hc G t h]
  simp only [Option.some_bind, Option.bind_eq_bind]
  rw [foldlM_modify_eq (fun p => pushBackIntData p.2) hp G]
  · rw [twoPassOps, applyOps_append]
  · intro p hpG
    rw [applyOps_names]
    · exact h p hpG
    · intro op hop x
      simp only [List.mem_map] at hop
      obtain ⟨q, _, rfl⟩ := hop
      rfl

/-- With every name known, the single-pass import succeeds and applies its mutations. -/
theorem importSinglePassAux_eq :
    ∀ (G : List GlobalEntry) (seen : List String) (t : List PARSymbol),
      (∀ p ∈ G, p.1 ∈ t.map (fun s => s.name)) →
      importSinglePassAux seen t G = some (applyOps t (singlePassOps seen G)) := by
  intro G
  induction G with
  | nil => intro seen t _; rfl
  | cons p ps ih =>
    intro seen t h
    have hp := h p (List.mem_cons_self _ _)
    have htl : ∀ (t2 : List PARSymbol), t2.map (fun s => s.name) = t.map (fun s => s.name) →
        ∀ q ∈ ps, q.1 ∈ t2.map (fun s => s.name) := by
      intro t2 e q hq
      rw [e]
      exact h q (List.mem_cons_of_mem _ hq)
    by_cases hs : p.1 ∈ seen
    · simp only [importSinglePassAux, singlePassOps, if_pos hs, Option.some_bind,
        Option.bind_eq_bind, List.nil_append]
      rw [modifySymbolByName_eq _ _ _ hp]
      simp only [Option.some_bind, applyOps_cons_op]
      exact ih _ _ (htl _ (updFirst_names (pushBackIntData p.2) p.1 (fun _ => rfl) t))
    · simp only [importSinglePassAux, singlePassOps, if_neg hs, Option.bind_eq_bind]
      rw [modifySymbolByName_eq _ _ _ hp]
      simp only [Option.some_bind]
      have e1 := updFirst_names clearIntData p.1 (fun _ => rfl) t
      rw [modifySymbolByName_eq _ _ _ (by rw [e1]; exact hp)]
      simp only [Option.some_bind, List.singleton_append, applyOps_cons_op]
      apply ih
      apply htl
      rw [updFirst_names (pushBackIntData p.2) p.1 (fun _ => rfl), e1]

theorem effect_cons_eq (op : SymOp) (ops : List SymOp) (n : String) (x : PARSymbol)
    (h : op.1 = n) : effect (op :: ops) n x = effect ops n (op.2 x) := by
  simp [effect, List.filter_cons, h]

theorem effect_cons_ne (op : SymOp) (ops : List SymOp) (n : String) (x : PARSymbol)
    (h : op.1 ≠ n) : effect (op :: ops) n x = effect ops n x := by
  simp [effect, List.filter_cons, h]

theorem effect_append (a b : List SymOp) (n : String) (x : PARSymbol) :
    effect (a ++ b) n x = effect b n (effect a n x) := by
  simp [effect, List.filter_append, List.foldl_append]

theorem valuesTagged_cons_eq (p : GlobalEntry) (G : List GlobalEntry) (n : String)
    (h : p.1 = n) : valuesTagged (p :: G) n = p.2 :: valuesTagged G n := by
  simp [valuesTagged, List.filter_cons, h]

theorem valuesTagged_cons_ne (p : GlobalEntry) (G : List GlobalEntry) (n : String)
    (h : p.1 ≠ n) : valuesTagged (p :: G) n = valuesTagged G n := by
  simp [valuesTagged, List.filter_cons, h]

theorem valuesTagged_append (A B : List GlobalEntry) (n : String) :
    valuesTagged (A ++ B) n = valuesTagged A n ++ valuesTagged B n := by
  simp [valuesTagged, List.filter_append]

theorem valuesTagged_ne_nil_of_mem (G : List GlobalEntry) (n : String)
    (h : n ∈ G.map (fun p => p.1)) : valuesTagged G n ≠ [] := by
  induction G with
  | nil => simp at h
  | cons p ps ih =>
    by_cases hp : p.1 = n
    · rw [valuesTagged_cons_eq p ps n hp]; simp
    · rw [valuesTagged_cons_ne p ps n hp]
      apply ih
      simp only [List.map_cons, List.mem_cons] at h
      rcases h with h | h
      · exact absurd h.symm hp
      · exact h

theorem effect_clearPass (n : String) (x : PARSymbol) :
    ∀ G : List GlobalEntry,
      effect (G.map (fun p => (p.1, clearIntData))) n x =
        if valuesTagged G n = [] then x else clearIntData x := by
  intro G
  induction G generalizing x with
  | nil => simp [effect, valuesTagged]
  | cons p ps ih =>
    by_cases hp : p.1 = n
    · rw [List.map_cons, effect_cons_eq _ _ _ _ hp, ih, valuesTagged_cons_eq p ps n hp]
      by_cases hv : valuesTagged ps n = []
      · simp [hv]
      · simp [hv, clearIntData]
    · rw [List.map_cons, effect_cons_ne _ _ _ _ hp, ih, valuesTagged_cons_ne p ps n hp]

theorem effect_pushPass (n : String) :
    ∀ (G : List GlobalEntry) (x : PARSymbol),
      effect (G.map (fun p => (p.1, pushBackIntData p.2))) n x =
        { x with intData := x.intData ++ (valuesTagged G n).map toInt32 } := by
  intro G
  induction G with
  | nil => intro x; simp [effect, valuesTagged]
  | cons p ps ih =>
    intro x
    by_cases hp : p.1 = n
    · rw [List.map_cons, effect_cons_eq _ _ _ _ hp, ih, valuesTagged_cons_eq p ps n hp]
      simp [pushBackIntData]
    · rw [List.map_cons, effect_cons_ne _ _ _ _ hp, ih, valuesTagged_cons_ne p ps n hp]

/-- Effect of the two passes on the symbol a name resolves to. -/
theorem effect_twoPassOps (G : List GlobalEntry) (n : String) (x : PARSymbol) :
    effect (twoPassOps G) n x =
      if valuesTagged G n = [] then x
      else { x with intData := (valuesTagged G n).map toInt32 } := by
  rw [twoPassOps, effect_append, effect_pushPass, effect_clearPass]
  by_cases hv : valuesTagged G n = []
  · simp [hv]
  · simp [hv, clearIntData]

/-- Effect of the single pass on the symbol a name resolves to. -/
theorem effect_singlePassOps (n : String) :
    ∀ (G : List GlobalEntry) (seen : List String) (x : PARSymbol),
      effect (singlePassOps seen G) n x =
        if n ∈ seen then { x with intData := x.intData ++ (valuesTagged G n).map toInt32 }
        else if valuesTagged G n = [] then x
        else { x with intData := (valuesTagged G n).map toInt32 } := by
  intro G
  induction G with
  | nil => intro seen x; simp [effect, valuesTagged, singlePassOps]
  | cons p ps ih =>
    intro seen x
    by_cases hp : p.1 = n
    · rw [valuesTagged_cons_eq p ps n hp]
      by_cases hs : n ∈ seen
      · have hs2 : p.1 ∈ seen := by rw [hp]; exact hs
        simp only [singlePassOps, if_pos hs2, List.nil_append, if_pos hs]
        rw [effect_cons_eq _ _ _ _ hp, ih]
        simp [hp, pushBackIntData]
      · have hs2 : ¬ p.1 ∈ seen := by rw [hp]; exact hs
        simp only [singlePassOps, if_neg hs2, List.singleton_append, if_neg hs]
        rw [effect_cons_eq _ _ _ _ hp, effect_cons_eq _ _ _ _ hp, ih]
        simp [hp, pushBackIntData, clearIntData]
    · rw [valuesTagged_cons_ne p ps n hp]
      have hmem : n ∈ p.1 :: seen ↔ n ∈ seen := by
        simp only [List.mem_cons]
        constructor
        · rintro (h | h)
          · exact absurd h.symm hp
          · exact h
        · exact Or.inr
      by_cases hs2 : p.1 ∈ seen
      · simp only [singlePassOps, if_pos hs2, List.nil_append]
        rw [effect_cons_ne _ _ _ _ hp, ih]
        simp only [hmem]
      · simp only [singlePassOps, if_neg hs2, List.singleton_append]
        rw [effect_cons_ne _ _ _ _ hp, effect_cons_ne _ _ _ _ hp, ih]
        simp only [hmem]

/-- C7 (amended): when every name of the source exists in the table, `importScriptEngine`
(clear all named payloads, then append all values) succeeds and yields the same table as the
documented single pass (clear on the first occurrence of a name, then append); in that table
the payload of the symbol each source name resolves to is the list of values tagged with the
name, in source order, each converted to `int32_t` (modulo `2^32`), every symbol whose name is
not in the source is unchanged at its place, and no symbol is renamed. -/
theorem import_two_pass_refines_single_pass (symbols : List PARSymbol)
    (globals : List GlobalEntry)
    (hnames : ∀ p ∈ globals, p.1 ∈ symbols.map (fun s => s.name)) :
    ∃ T, importScriptEngine symbols globals = some T ∧
      importSinglePass symbols globals = some T ∧
      (∀ n ∈ globals.map (fun p => p.1),
        intDataByName T n = some ((valuesTagged globals n).map toInt32)) ∧
      (∀ (i : Nat) (x : PARSymbol), symbols[i]? = some x →
        x.name ∉ globals.map (fun p => p.1) → T[i]? = some x) ∧
      T.map (fun s => s.name) = symbols.map (fun s => s.name) := by
  refine ⟨applyOps symbols (twoPassOps globals), importScriptEngine_eq symbols globals hnames,
    ?_, ?_, ?_, ?_⟩
  · rw [importSinglePass, importSinglePassAux_eq globals [] symbols hnames]
    congr 1
    apply applyOps_congr _ _ _ (namePreserving_singlePassOps globals [])
      (namePreserving_twoPassOps globals)
    intro n x
    rw [effect_twoPassOps, effect_singlePassOps]
    simp
  · intro n hn
    have hv := valuesTagged_ne_nil_of_mem globals n hn
    obtain ⟨p, hp, rfl⟩ := List.mem_map.mp hn
    obtain ⟨s, hs, hsn⟩ := List.mem_map.mp (hnames p hp)
    have hfind : ∃ y, symbols.find? (fun s => decide (s.name = p.1)) = some y := by
      cases hf : symbols.find? (fun s => decide (s.name = p.1)) with
      | none =>
        have := List.find?_eq_none.mp hf s hs
        simp [hsn] at this
      | some y => exact ⟨y, rfl⟩
    obtain ⟨y, hy⟩ := hfind
    rw [intDataByName, applyOps_find p.1 symbols _ (namePreserving_twoPassOps globals), hy]
    simp [effect_twoPassOps, hv]
  · intro i x hx hxn
    apply applyOps_getElem_of_not_mem _ _ _ _ hx
    intro hmem
    apply hxn
    simp only [twoPassOps, List.map_append, List.map_map, List.mem_append] at hmem
    rcases hmem with h | h <;> simpa [Function.comp] using h
  · exact applyOps_names _ (namePreserving_twoPassOps globals) symbols

/-- Witness for C7 (amended): a source that names an array symbol twice and a scalar once. -/
theorem import_two_pass_refines_single_pass_witness :
    ∃ T, importScriptEngine sampleTable sampleSource = some T ∧
      importSinglePass sampleTable sampleSource = some T ∧
      (∀ n ∈ sampleSource.map (fun p => p.1),
        intDataByName T n = some ((valuesTagged sampleSource n).map toInt32)) ∧
      (∀ (i : Nat) (x : PARSymbol), sampleTable[i]? = some x →
        x.name ∉ sampleSource.map (fun p => p.1) → T[i]? = some x) ∧
      T.map (fun s => s.name) = sampleTable.map (fun s => s.name) :=
  import_two_pass_refines_single_pass sampleTable sampleSource (by decide)

/-- C7 (counterexample): the source value 2147483648 for `KAPITEL` does not fit `int32_t`;
both imports store -2147483648, so the payload is not the list of values tagged with the
name. -/
theorem import_narrows_out_of_range_value :
    (∀ p ∈ wideSource, p.1 ∈ sampleTable.map (fun s => s.name)) ∧
    ((importScriptEngine sampleTable wideSource).bind
      (fun T => intDataByName T "KAPITEL")).map (fun l => l.map (fun v => v.val)) =
        some [-2147483648] ∧
    ((importSinglePass sampleTable wideSource).bind
      (fun T => intDataByName T "KAPITEL")).map (fun l => l.map (fun v => v.val)) =
        some [-2147483648] ∧
    valuesTagged wideSource "KAPITEL" = [2147483648] := by
  refine ⟨by decide, by decide, by decide, by decide⟩

theorem toInt32_val (v : int32_t) : toInt32 v.val = v := by
  apply Subtype.ext
  have h := v.property
  simp only [toInt32]
  omega

theorem map_toInt32_val (l : List int32_t) : (l.map (fun v => v.val)).map toInt32 = l := by
  induction l with
  | nil => rfl
  | cons a l ih => simp only [List.map_cons, toInt32_val, ih]

theorem mem_export_name (t : List PARSymbol) :
    ∀ p ∈ exportScriptEngine t [], p.1 ∈ t.map (fun s => s.name) := by
  intro p hp
  rw [exportScriptEngine_eq, List.nil_append, List.mem_flatMap] at hp
  obtain ⟨s, hs, hps⟩ := hp
  simp only [entriesOf, List.mem_map] at hps
  obtain ⟨v, _, rfl⟩ := hps
  exact List.mem_map.mpr ⟨s, List.mem_of_mem_filter hs, rfl⟩

theorem valuesTagged_entriesOf_eq (s : PARSymbol) :
    valuesTagged (entriesOf s) s.name = s.intData.map (fun v => v.val) := by
  simp [valuesTagged, entriesOf, List.filter_map, Function.comp, List.map_map]

theorem valuesTagged_entriesOf_ne (s : PARSymbol) (n : String) (h : s.name ≠ n) :
    valuesTagged (entriesOf s) n = [] := by
  simp [valuesTagged, entriesOf, List.filter_map, Function.comp, h]

theorem export_cons (s : PARSymbol) (t : List PARSymbol) :
    exportScriptEngine (s :: t) [] =
      (if isFlatInt s then entriesOf s else []) ++ exportScriptEngine t [] := by
  rw [exportScriptEngine_eq, exportScriptEngine_eq]
  by_cases h : isFlatInt s = true
  · simp [List.filter_cons, h]
  · simp [List.filter_cons, h]

theorem valuesTagged_export_of_not_mem (n : String) :
    ∀ t : List PARSymbol, n ∉ t.map (fun s => s.name) →
      valuesTagged (exportScriptEngine t []) n = [] := by
  intro t h
  cases hv : valuesTagged (exportScriptEngine t []) n with
  | nil => rfl
  | cons v vs =>
    exfalso
    have hmem : v ∈ valuesTagged (exportScriptEngine t []) n := by rw [hv]; simp
    simp only [valuesTagged, List.mem_map, List.mem_filter, decide_eq_true_eq] at hmem
    obtain ⟨p, ⟨hp, hpn⟩, _⟩ := hmem
    exact h (hpn ▸ mem_export_name t p hp)

/-- With distinct names, the exported values tagged with the name of a symbol are its payload
when it is exported and nothing otherwise. -/
theorem valuesTagged_export :
    ∀ t : List PARSymbol, (t.map (fun s => s.name)).Nodup → ∀ s ∈ t,
      valuesTagged (exportScriptEngine t []) s.name =
        if isFlatInt s then s.intData.map (fun v => v.val) else [] := by
  intro t
  induction t with
  | nil => intro _ s hs; simp at hs
  | cons x rest ih =>
    intro hnd s hs
    rw [List.map_cons, List.nodup_cons] at hnd
    rw [export_cons, valuesTagged_append]
    rcases List.mem_cons.mp hs with rfl | hs
    · rw [valuesTagged_export_of_not_mem _ rest hnd.1, List.append_nil]
      by_cases hf : isFlatInt s = true
      · simp [hf, valuesTagged_entriesOf_eq]
      · simp [hf, valuesTagged]
    · have hne : x.name ≠ s.name := by
        intro e
        exact hnd.1 (e ▸ List.mem_map.mpr ⟨s, hs, rfl⟩)
      rw [ih hnd.2 s hs]
      by_cases hf : isFlatInt x = true
      · simp [hf, valuesTagged_entriesOf_ne x s.name hne]
      · simp [hf, valuesTagged]

/-- Mutations that fix every symbol of a table with distinct names fix the table. -/
theorem applyOps_eq_self :
    ∀ (t : List PARSymbol) (ops : List SymOp), (t.map (fun s => s.name)).Nodup →
      NamePreserving ops → (∀ s ∈ t, effect ops s.name s = s) → applyOps t ops = t := by
  intro t
  induction t with
  | nil =>
    intro ops _ h _
    simpa using applyOps_names ops h []
  | cons x rest ih =>
    intro ops hnd h hfix
    rw [List.map_cons, List.nodup_cons] at hnd
    rw [applyOps_cons ops h, hfix x (List.mem_cons_self _ _)]
    congr 1
    apply ih _ hnd.2 (h.filter _)
    intro s hs
    have hne : s.name ≠ x.name := by
      intro e
      exact hnd.1 (e ▸ List.mem_map.mpr ⟨s, hs, rfl⟩)
    rw [effect_filter_ne ops x.name s.name hne]
    exact hfix s (List.mem_cons_of_mem _ hs)

/-- C5 (amended): for every symbol table whose symbol names are pairwise distinct, exporting
into an empty sink and importing the result into the same table succeeds and reproduces the
table, hence every symbol's integer payload. -/
theorem import_export_roundtrip (symbols : List PARSymbol)
    (hdistinct : (symbols.map (fun s => s.name)).Nodup) :
    importScriptEngine symbols (exportScriptEngine symbols []) = some symbols := by
  rw [importScriptEngine_eq symbols _ (mem_export_name symbols)]
  congr 1
  apply applyOps_eq_self symbols _ hdistinct (namePreserving_twoPassOps _)
  intro s hs
  rw [effect_twoPassOps, valuesTagged_export symbols hdistinct s hs]
  by_cases hf : isFlatInt s = true
  · rw [if_pos hf]
    by_cases hv : s.intData.map (fun v => v.val) = []
    · rw [if_pos hv]
    · rw [if_neg hv, map_toInt32_val]
  · rw [if_neg hf, if_pos rfl]

/-- Witness for C5 (amended): the round trip on a table with distinct names. -/
theorem import_export_roundtrip_witness :
    (sampleTable.map (fun s => s.name)).Nodup ∧
    importScriptEngine sampleTable (exportScriptEngine sampleTable []) = some sampleTable :=
  ⟨by decide, import_export_roundtrip sampleTable (by decide)⟩

/-- C5 (counterexample): on a table in which two integer globals share a name, the round trip
gives the first of them both payloads and changes the table. -/
theorem roundtrip_fails_on_name_clash :
    exportScriptEngine clashingTable [] = [("A", 1), ("A", 2)] ∧
    importScriptEngine clashingTable (exportScriptEngine clashingTable []) =
      some [ { name := "A", flags := 0, type := EParType.EParType_Int, intData := [1, 2],
               address := 0 },
             { name := "A", flags := 0, type := EParType.EParType_Int, intData := [2],
               address := 0 } ] ∧
    importScriptEngine clashingTable (exportScriptEngine clashingTable []) ≠
      some clashingTable := by
  refine ⟨by decide, by decide, by decide⟩

/-! ## Item use -/

/-- C8: `useItemOn` returns false exactly when the item has neither `on_state[0]` nor
`on_equip`, and then leaves every message queue alone; otherwise it returns true and appends
exactly one manipulate message to the queue of the given NPC, with the given item as target
and sub-type "use item" whenever `on_state[0]` is set, "equip item" when it is not. -/
theorem useItemOn_dispatch (getItem : Nat → C_Item) (hitem hnpc : Nat)
    (em : Nat → List ManipulateMessage) :
    ((useItemOn getItem hitem hnpc em).1 = false ↔
      ((getItem hitem).on_state 0 = 0 ∧ (getItem hitem).on_equip = 0)) ∧
    (useItemOn getItem hitem hnpc em).2 =
      (if (useItemOn getItem hitem hnpc em).1 then
        Function.update em hnpc (em hnpc ++
          [{ targetItem := hitem,
             subType := if (getItem hitem).on_state 0 ≠ 0 then ManipulateSubType.ST_UseItem
                        else ManipulateSubType.ST_EquipItem }])
      else em) ∧
    (∀ h, ((useItemOn getItem hitem hnpc em).2 h).length =
      (em h).length + (if h = hnpc ∧ (useItemOn getItem hitem hnpc em).1 = true then 1 else 0)) := by
  by_cases hc : (getItem hitem).on_state 0 = 0 ∧ (getItem hitem).on_equip = 0
  · have e : useItemOn getItem hitem hnpc em = (false, em) := by
      simp only [useItemOn, if_pos hc]
    rw [e]
    simp [hc]
  · have e : useItemOn getItem hitem hnpc em =
        (true, Function.update em hnpc (em hnpc ++
          [{ targetItem := hitem,
             subType := if (getItem hitem).on_state 0 ≠ 0 then ManipulateSubType.ST_UseItem
                        else ManipulateSubType.ST_EquipItem }])) := by
      simp only [useItemOn, if_neg hc]
    rw [e]
    refine ⟨by simpa using hc, by simp, ?_⟩
    intro h
    by_cases hh : h = hnpc
    · subst hh
      simp
    · simp [Function.update_noteq hh, hh]

/-! ## Inventory insertion -/

theorem dropWhile_append_stop (p : Char → Bool) (c : Char) (hc : p c = false) :
    ∀ (a b : List Char), (∀ x ∈ a, p x = true) →
      (a ++ c :: b).dropWhile p = c :: b := by
  intro a
  induction a with
  | nil => intro b _; simp [List.dropWhile_cons, hc]
  | cons x a ih =>
    intro b h
    have hx : p x = true := h x (List.mem_cons_self _ _)
    rw [List.cons_append, List.dropWhile_cons, if_pos hx]
    exact ih b (fun y hy => h y (List.mem_cons_of_mem _ hy))

theorem stripExtension_append (base ext : List Char) (hdot : '.' ∉ ext) :
    stripExtension (base ++ '.' :: ext) = base := by
  have hmem : '.' ∈ base ++ '.' :: ext := by simp
  have hrev : (base ++ '.' :: ext).reverse = ext.reverse ++ '.' :: base.reverse := by simp
  have hall : ∀ x ∈ ext.reverse, (fun c : Char => decide (c ≠ '.')) x = true := by
    intro x hx
    have hx2 : x ∈ ext := List.mem_reverse.mp hx
    have : x ≠ '.' := fun e => hdot (e ▸ hx2)
    simpa using this
  rw [stripExtension, if_pos hmem, hrev,
    dropWhile_append_stop (fun c : Char => decide (c ≠ '.')) '.' (by simp) _ _ hall]
  simp

theorem bodyMeshName_isSome (visual_change : List Char) :
    (bodyMeshName visual_change).isSome = true := by
  simp [bodyMeshName, substr]

theorem bodyMeshName_three_char_ext (base ext : List Char) (hext : ext.length = 3)
    (hsize : (base ++ '.' :: ext).length < 2 ^ SIZE_BITS) :
    bodyMeshName (base ++ '.' :: ext) = some (base ++ ".MDM".toList) := by
  have hlen : (base ++ '.' :: ext).length = base.length + 4 := by
    simp [hext]
  have hcount : ((base ++ '.' :: ext).length + 2 ^ SIZE_BITS - 4) % 2 ^ SIZE_BITS =
      base.length := by
    rw [hlen] at hsize ⊢
    have e : base.length + 4 + 2 ^ SIZE_BITS - 4 = base.length + 2 ^ SIZE_BITS := by omega
    rw [e, Nat.add_mod_right]
    exact Nat.mod_eq_of_lt (by omega)
  simp only [bodyMeshName, hcount, substr]
  simp

/-- C10 (amended): for an armor-class item inserted into the inventory of an NPC whose entity
resolves, when the file extension of the visual-change name (what follows its last `.`) is
exactly three characters long and the name is shorter than `2^64` characters, the body-mesh
name applied is that name with its file extension replaced by `.MDM`; and for a name of any
length the computation of the name stays inside the string (`substr` does not throw). -/
theorem onInventoryItemInserted_body_mesh (cats : ItemCategories) (itemData : C_Item)
    (item e : Nat) (base ext : List Char)
    (harmor : itemData.mainflag &&& cats.ITM_CAT_ARMOR ≠ 0)
    (hname : itemData.visual_change = base ++ '.' :: ext)
    (hext : ext.length = 3) (hdot : '.' ∉ ext)
    (hsize : itemData.visual_change.length < 2 ^ SIZE_BITS) :
    onInventoryItemInserted cats itemData item (some e) =
      some (WorldOp.NPC_SetBodyMesh e (replaceExtension itemData.visual_change) ::
        (if itemData.mainflag &&& (cats.ITM_CAT_NF ||| cats.ITM_CAT_FF) ≠ 0 then
          [WorldOp.NPC_EquipWeapon e item] else [])) ∧
    replaceExtension itemData.visual_change = base ++ ".MDM".toList ∧
    (∀ name : List Char, (bodyMeshName name).isSome = true) := by
  have hb : bodyMeshName itemData.visual_change = some (base ++ ".MDM".toList) := by
    rw [hname] at hsize ⊢
    exact bodyMeshName_three_char_ext base ext hext hsize
  have hr : replaceExtension itemData.visual_change = base ++ ".MDM".toList := by
    rw [replaceExtension, hname, stripExtension_append base ext hdot]
  refine ⟨?_, hr, bodyMeshName_isSome⟩
  simp only [onInventoryItemInserted, if_pos harmor, hb, hr, Option.map_some', List.cons_append,
    List.nil_append]

/-- Witness for C10 (amended): an armor with visual-change asset `ARMOR_H.ASC`. -/
theorem onInventoryItemInserted_body_mesh_witness :
    onInventoryItemInserted sampleCats plateArmor 5 (some 1) =
      some [WorldOp.NPC_SetBodyMesh 1 "ARMOR_H.MDM".toList] :=
  ((onInventoryItemInserted_body_mesh sampleCats plateArmor 5 1 "ARMOR_H".toList "ASC".toList
    (by decide) (by decide) (by decide) (by decide) (by decide)).1.trans (by decide))

/-- C10 (counterexample): for an armor whose visual-change asset is `ARM.MS` the code drops
the last four characters and applies `AR.MDM`, not the name with its extension replaced. -/
theorem body_mesh_two_char_extension :
    onInventoryItemInserted sampleCats shortExtArmor 5 (some 1) =
      some [WorldOp.NPC_SetBodyMesh 1 "AR.MDM".toList] ∧
    replaceExtension shortExtArmor.visual_change = "ARM.MDM".toList ∧
    onInventoryItemInserted sampleCats shortExtArmor 5 (some 1) ≠
      some [WorldOp.NPC_SetBodyMesh 1 (replaceExtension shortExtArmor.visual_change)] := by
  refine ⟨by decide, by decide, by decide⟩

end REGoth
